import Mathlib

/-!
Shallow embedding of src/scripts/fix_basis_empty_string.py, a line-indexed
source patcher: for each index in fix_lines, if the line at that index
contains the expected pattern, the line is replaced by a five-line guard
block (joined into a single list entry), indented like the original line,
and the script finally prints the length of fix_lines.
-/

/-- A line of the file, as a list of characters. -/
abbrev Line := List Char

/-- The in-memory document: the ordered list of lines produced by readlines. -/
abbrev Document := List Line

/-- Python substring test (pat in s): pat occurs contiguously in s. -/
def containsSub : Line → Line → Bool
  | p, [] => p.isEmpty
  | p, c :: t => p.isPrefixOf (c :: t) || containsSub p t

/-- The expected pattern checked on line 18 of the script. -/
def targetPattern : Line :=
  "if basis = argsList.Back().Value.(formulaArg).ToNumber(); basis.Type != ArgNumber \x7b".toList

/-- The 0-indexed target line numbers (fix_lines in the script). -/
def fix_lines : List Nat :=
  [14822, 18483, 18536, 19103, 19255, 20593, 20639, 20816, 21334, 21386]

/-- ASCII whitespace as stripped by Python str.lstrip with no argument. -/
def isPySpace (c : Char) : Bool :=
  c = ' ' || c = '\t' || c = '\n' || c = '\x0b' || c = '\x0c' || c = '\r'

/-- Python line.lstrip(). -/
def lstrip (l : Line) : Line := l.dropWhile isPySpace

/-- indent = len(line) - len(line.lstrip()). -/
def indentOf (l : Line) : Nat := l.length - (lstrip l).length

/-- indent_str: the space character repeated indent times. -/
def indentStr (n : Nat) : Line := List.replicate n ' '

/-- new_lines: the five replacement lines built from the detected indentation. -/
def newLines (n : Nat) : List Line :=
  [ indentStr n ++ "basisArg := argsList.Back().Value.(formulaArg)\n".toList
  , indentStr n ++ "if isLiteralEmptyString(basisArg) \x7b\n".toList
  , indentStr n ++ "\treturn newErrorFormulaArg(formulaErrorNUM, formulaErrorNUM)\n".toList
  , indentStr n ++ "\x7d\n".toList
  , indentStr n ++ "if basis = basisArg.ToNumber(); basis.Type != ArgNumber \x7b\n".toList ]

/-- The single entry replacing the matched line: the join of new_lines. -/
def newBlock (n : Nat) : Line := (newLines n).flatten

/-- One iteration of the loop body (for line_idx in fix_lines).
none models the uncaught IndexError raised by the subscript when the index
is out of range; otherwise the document is returned, mutated iff the
pattern matched at that index. -/
def applyTarget (doc : Document) (i : Nat) : Option Document :=
  match doc[i]? with
  | none => none
  | some line =>
      if containsSub targetPattern line then
        some (doc.set i (newBlock (indentOf line)))
      else
        some doc

/-- The whole loop over a list of target indices. -/
def runFix : List Nat → Document → Option Document
  | [], doc => some doc
  | i :: rest, doc =>
      match applyTarget doc i with
      | none => none
      | some d => runFix rest d

/-- The number of targets actually applied during the run. The script does
not track this number; it is the notion of applied count used by the
specification, defined over the same evolving document as the loop. -/
def appliedCount : List Nat → Document → Nat
  | [], _ => 0
  | i :: rest, doc =>
      match doc[i]? with
      | none => 0
      | some line =>
          if containsSub targetPattern line then
            appliedCount rest (doc.set i (newBlock (indentOf line))) + 1
          else
            appliedCount rest doc

/-- The count printed on line 39 of the script: the length of fix_lines. -/
def reportedCount : Nat := fix_lines.length

/-! ### Basic lemmas about the substring test -/

theorem containsSub_iff (p l : Line) : containsSub p l = true ↔ p <:+: l := by
  induction l with
  | nil =>
      simp [containsSub, List.isEmpty_iff]
  | cons c t ih =>
      simp [containsSub, List.infix_cons_iff, ih, List.isPrefixOf_iff_prefix]

/-! ### Lemmas about a single loop iteration -/

theorem applyTarget_of_match {doc : Document} {i : Nat} {line : Line}
    (h : doc[i]? = some line) (hm : containsSub targetPattern line = true) :
    applyTarget doc i = some (doc.set i (newBlock (indentOf line))) := by
  simp [applyTarget, h, hm]

theorem applyTarget_of_no_match {doc : Document} {i : Nat} {line : Line}
    (h : doc[i]? = some line) (hm : containsSub targetPattern line = false) :
    applyTarget doc i = some doc := by
  simp [applyTarget, h, hm]

theorem applyTarget_eq_none {doc : Document} {i : Nat} (h : doc.length ≤ i) :
    applyTarget doc i = none := by
  simp [applyTarget, List.getElem?_eq_none h]

theorem exists_line_of_applyTarget {doc d : Document} {i : Nat}
    (h : applyTarget doc i = some d) : ∃ line, doc[i]? = some line := by
  unfold applyTarget at h
  cases hl : doc[i]? with
  | none => rw [hl] at h; exact absurd h (by simp)
  | some line => exact ⟨line, rfl⟩

theorem applyTarget_length {doc d : Document} {i : Nat}
    (h : applyTarget doc i = some d) : d.length = doc.length := by
  obtain ⟨line, hl⟩ := exists_line_of_applyTarget h
  cases hm : containsSub targetPattern line with
  | true =>
      rw [applyTarget_of_match hl hm] at h
      cases h; simp
  | false =>
      rw [applyTarget_of_no_match hl hm] at h
      cases h; rfl

theorem applyTarget_getElem_ne {doc d : Document} {i j : Nat}
    (h : applyTarget doc i = some d) (hij : j ≠ i) : d[j]? = doc[j]? := by
  obtain ⟨line, hl⟩ := exists_line_of_applyTarget h
  cases hm : containsSub targetPattern line with
  | true =>
      rw [applyTarget_of_match hl hm] at h
      cases h; exact List.getElem?_set_ne (fun hh => hij hh.symm)
  | false =>
      rw [applyTarget_of_no_match hl hm] at h
      cases h; rfl

theorem applyTarget_getElem_self {doc d : Document} {i : Nat} {line : Line}
    (h : applyTarget doc i = some d) (hl : doc[i]? = some line) :
    d[i]? = some (if containsSub targetPattern line then newBlock (indentOf line) else line) := by
  have hi : i < doc.length := by
    by_contra hge
    rw [List.getElem?_eq_none (Nat.le_of_not_lt hge)] at hl
    cases hl
  cases hm : containsSub targetPattern line with
  | true =>
      rw [applyTarget_of_match hl hm] at h
      cases h
      simp [hm, List.getElem?_set_self (by simpa using hi)]
  | false =>
      rw [applyTarget_of_no_match hl hm] at h
      cases h
      simp [hm, hl]

/-! ### Lemmas about the whole loop -/

theorem runFix_length {idxs : List Nat} {doc d : Document}
    (h : runFix idxs doc = some d) : d.length = doc.length := by
  induction idxs generalizing doc with
  | nil => cases h; rfl
  | cons i rest ih =>
      unfold runFix at h
      cases ha : applyTarget doc i with
      | none => rw [ha] at h; cases h
      | some doc₁ =>
          rw [ha] at h
          rw [ih h, applyTarget_length ha]

theorem runFix_in_range {idxs : List Nat} {doc d : Document}
    (h : runFix idxs doc = some d) : ∀ i ∈ idxs, i < doc.length := by
  induction idxs generalizing doc with
  | nil => intro i hi; cases hi
  | cons i rest ih =>
      unfold runFix at h
      cases ha : applyTarget doc i with
      | none => rw [ha] at h; cases h
      | some doc₁ =>
          rw [ha] at h
          intro j hj
          rcases List.mem_cons.mp hj with rfl | hmem
          · by_contra hge
            rw [applyTarget_eq_none (Nat.le_of_not_lt hge)] at ha
            cases ha
          · have := ih h j hmem
            rwa [applyTarget_length ha] at this

theorem runFix_getElem_not_mem {idxs : List Nat} {doc d : Document}
    (h : runFix idxs doc = some d) {j : Nat} (hj : j ∉ idxs) : d[j]? = doc[j]? := by
  induction idxs generalizing doc with
  | nil => cases h; rfl
  | cons i rest ih =>
      unfold runFix at h
      cases ha : applyTarget doc i with
      | none => rw [ha] at h; cases h
      | some doc₁ =>
          rw [ha] at h
          have hji : j ≠ i := fun hh => hj (hh ▸ List.mem_cons_self i rest)
          have hjr : j ∉ rest := fun hh => hj (List.mem_cons_of_mem i hh)
          rw [ih h hjr, applyTarget_getElem_ne ha hji]

theorem runFix_of_no_match {idxs : List Nat} {doc : Document}
    (h : ∀ i ∈ idxs, ∃ line, doc[i]? = some line ∧ containsSub targetPattern line = false) :
    runFix idxs doc = some doc := by
  induction idxs with
  | nil => rfl
  | cons i rest ih =>
      obtain ⟨line, hl, hm⟩ := h i (List.mem_cons_self i rest)
      unfold runFix
      rw [applyTarget_of_no_match hl hm]
      exact ih fun j hj => h j (List.mem_cons_of_mem i hj)

/-- For a duplicate-free index list, the final document is the pointwise
transform of the original document: each targeted index holds either its
original line (no match) or the block built from its original line. -/
theorem runFix_getElem {idxs : List Nat} (hnd : idxs.Nodup) {doc d : Document}
    (h : runFix idxs doc = some d) (j : Nat) :
    d[j]? = if j ∈ idxs then
        (doc[j]?).map (fun l => if containsSub targetPattern l then newBlock (indentOf l) else l)
      else doc[j]? := by
  induction idxs generalizing doc with
  | nil => cases h; simp
  | cons i rest ih =>
      unfold runFix at h
      cases ha : applyTarget doc i with
      | none => rw [ha] at h; cases h
      | some doc₁ =>
          rw [ha] at h
          obtain ⟨hir, hndr⟩ := List.nodup_cons.mp hnd
          have hrec := ih hndr h
          by_cases hji : j = i
          · subst hji
            obtain ⟨line, hl⟩ := exists_line_of_applyTarget ha
            have h1 := applyTarget_getElem_self ha hl
            rw [hrec, if_neg hir, h1, if_pos (List.mem_cons_self j rest), hl]
            rfl
          · have h2 : doc₁[j]? = doc[j]? := applyTarget_getElem_ne ha hji
            rw [hrec, h2]
            by_cases hjr : j ∈ rest
            · rw [if_pos hjr, if_pos (List.mem_cons_of_mem i hjr)]
            · rw [if_neg hjr, if_neg (by simp [List.mem_cons, hji, hjr])]

/-! ### The pattern never occurs in a replacement block -/

theorem prefix_of_prefix_append_cons {p a b : Line} {c : Char}
    (hc : c ∉ p) (h : p <+: a ++ c :: b) : p <+: a := by
  induction a generalizing p with
  | nil =>
      rcases List.prefix_cons_iff.mp h with rfl | ⟨t, rfl, _⟩
      · exact List.nil_prefix
      · exact absurd (List.mem_cons_self c t) hc
  | cons x a' ih =>
      rcases List.prefix_cons_iff.mp h with rfl | ⟨t, rfl, ht⟩
      · exact List.nil_prefix
      · have hct : c ∉ t := fun hh => hc (List.mem_cons_of_mem x hh)
        exact List.cons_prefix_cons.mpr ⟨rfl, ih hct ht⟩

theorem infix_append_cons_split {p a b : Line} {c : Char}
    (hc : c ∉ p) (h : p <:+: a ++ c :: b) : p <:+: a ∨ p <:+: b := by
  induction a generalizing p with
  | nil =>
      rcases List.infix_cons_iff.mp h with hpre | hinf
      · rcases List.prefix_cons_iff.mp hpre with rfl | ⟨t, rfl, _⟩
        · exact Or.inl List.infix_rfl
        · exact absurd (List.mem_cons_self c t) hc
      · exact Or.inr hinf
  | cons x a' ih =>
      rcases List.infix_cons_iff.mp h with hpre | hinf
      · exact Or.inl (prefix_of_prefix_append_cons hc hpre).isInfix
      · rcases ih hc hinf with h1 | h2
        · exact Or.inl (List.infix_cons h1)
        · exact Or.inr h2

theorem infix_of_infix_indentStr_append {p t : Line} {n : Nat}
    (hsp : p.head? ≠ some ' ') (h : p <:+: indentStr n ++ t) : p <:+: t := by
  induction n with
  | zero => simpa [indentStr] using h
  | succ m ih =>
      rw [indentStr, List.replicate_succ, List.cons_append] at h
      rcases List.infix_cons_iff.mp h with hpre | hinf
      · rcases List.prefix_cons_iff.mp hpre with rfl | ⟨t', rfl, _⟩
        · exact List.nil_infix
        · exact absurd rfl hsp
      · exact ih (by rwa [indentStr])

theorem not_infix_segments {p : Line} (hp : p ≠ []) (hnl : ('\n' : Char) ∉ p)
    (hsp : p.head? ≠ some ' ') (segs : List Line) (hseg : ∀ t ∈ segs, ¬ p <:+: t) (n : Nat) :
    ¬ p <:+: (segs.map (fun t => indentStr n ++ (t ++ [('\n' : Char)]))).flatten := by
  induction segs with
  | nil =>
      intro h
      exact hp (List.eq_nil_of_infix_nil (by simpa using h))
  | cons t rest ih =>
      intro h
      have hsh : (List.map (fun u => indentStr n ++ (u ++ [('\n' : Char)])) (t :: rest)).flatten
          = (indentStr n ++ t) ++ ('\n' : Char) ::
            (List.map (fun u => indentStr n ++ (u ++ [('\n' : Char)])) rest).flatten := by
        simp [List.append_assoc]
      rw [hsh] at h
      rcases infix_append_cons_split hnl h with h1 | h2
      · exact hseg t (List.mem_cons_self t rest) (infix_of_infix_indentStr_append hsp h1)
      · exact ih (fun u hu => hseg u (List.mem_cons_of_mem t hu)) h2

theorem newLines_eq_map (n : Nat) :
    newLines n = List.map (fun t => indentStr n ++ (t ++ [('\n' : Char)]))
      [ "basisArg := argsList.Back().Value.(formulaArg)".toList
      , "if isLiteralEmptyString(basisArg) \x7b".toList
      , "\treturn newErrorFormulaArg(formulaErrorNUM, formulaErrorNUM)".toList
      , "\x7d".toList
      , "if basis = basisArg.ToNumber(); basis.Type != ArgNumber \x7b".toList ] := by
  simp only [newLines, List.map_cons, List.map_nil, List.cons.injEq, and_true,
    List.append_cancel_left_eq]
  refine ⟨by decide, by decide, by decide, by decide, by decide⟩

theorem not_contains_newBlock (n : Nat) :
    containsSub targetPattern (newBlock n) = false := by
  cases hb : containsSub targetPattern (newBlock n) with
  | false => rfl
  | true =>
      exfalso
      have h := (containsSub_iff _ _).mp hb
      rw [newBlock, newLines_eq_map] at h
      refine not_infix_segments (by decide) (by decide) (by decide) _ ?_ n h
      intro t ht
      rw [← containsSub_iff] at *
      fin_cases ht <;> simp_all
      all_goals decide

/-! ### Indentation lemmas -/

theorem lstrip_indentStr_append (n : Nat) (l : Line) :
    lstrip (indentStr n ++ l) = lstrip l := by
  unfold lstrip indentStr
  exact List.dropWhile_append_of_pos
    (fun a ha => by rw [List.eq_of_mem_replicate ha]; decide)

theorem lstrip_length_le (l : Line) : (lstrip l).length ≤ l.length :=
  ((List.dropWhile_suffix isPySpace).length_le)

theorem indentOf_indentStr_append (n : Nat) (l : Line) :
    indentOf (indentStr n ++ l) = n + indentOf l := by
  unfold indentOf
  rw [lstrip_indentStr_append, List.length_append, indentStr, List.length_replicate]
  have := lstrip_length_le l
  omega

/-! ### Lemmas about the applied count -/

theorem appliedCount_le (idxs : List Nat) (doc : Document) :
    appliedCount idxs doc ≤ idxs.length := by
  induction idxs generalizing doc with
  | nil => simp [appliedCount]
  | cons i rest ih =>
      cases hl : doc[i]? with
      | none => simp [appliedCount, hl]
      | some line =>
          cases hm : containsSub targetPattern line with
          | true =>
              simp only [appliedCount, hl, hm, if_pos, List.length_cons]
              exact Nat.succ_le_succ (ih _)
          | false =>
              simp only [appliedCount, hl, hm, List.length_cons]
              exact Nat.le_succ_of_le (ih _)

theorem appliedCount_of_no_match {idxs : List Nat} {doc : Document}
    (h : ∀ i ∈ idxs, ∃ line, doc[i]? = some line ∧ containsSub targetPattern line = false) :
    appliedCount idxs doc = 0 := by
  induction idxs with
  | nil => rfl
  | cons i rest ih =>
      obtain ⟨line, hl, hm⟩ := h i (List.mem_cons_self i rest)
      simp only [appliedCount, hl, hm]
      exact ih fun j hj => h j (List.mem_cons_of_mem i hj)

theorem appliedCount_of_all_match {idxs : List Nat} (hnd : idxs.Nodup) {doc : Document}
    (h : ∀ i ∈ idxs, ∃ line, doc[i]? = some line ∧ containsSub targetPattern line = true) :
    appliedCount idxs doc = idxs.length := by
  induction idxs generalizing doc with
  | nil => rfl
  | cons i rest ih =>
      obtain ⟨hir, hndr⟩ := List.nodup_cons.mp hnd
      obtain ⟨line, hl, hm⟩ := h i (List.mem_cons_self i rest)
      simp only [appliedCount, hl, hm, if_true, List.length_cons, Nat.add_right_cancel_iff]
      apply ih hndr
      intro j hj
      obtain ⟨lj, hlj, hmj⟩ := h j (List.mem_cons_of_mem i hj)
      have hij : i ≠ j := fun hh => hir (hh ▸ hj)
      exact ⟨lj, by rw [List.getElem?_set_ne hij, hlj], hmj⟩

theorem all_match_of_appliedCount_eq {idxs : List Nat} (hnd : idxs.Nodup) {doc : Document}
    (h : appliedCount idxs doc = idxs.length) :
    ∀ i ∈ idxs, ∃ line, doc[i]? = some line ∧ containsSub targetPattern line = true := by
  induction idxs generalizing doc with
  | nil => intro i hi; cases hi
  | cons i rest ih =>
      obtain ⟨hir, hndr⟩ := List.nodup_cons.mp hnd
      cases hl : doc[i]? with
      | none =>
          simp only [appliedCount, hl, List.length_cons] at h
          cases h
      | some line =>
          cases hm : containsSub targetPattern line with
          | false =>
              simp [appliedCount, hl, hm] at h
              have hle := appliedCount_le rest doc
              omega
          | true =>
              simp only [appliedCount, hl, hm, if_true, List.length_cons,
                Nat.add_right_cancel_iff] at h
              have hrec := ih hndr h
              intro j hj
              rcases List.mem_cons.mp hj with rfl | hjr
              · exact ⟨line, hl, hm⟩
              · obtain ⟨lj, hlj, hmj⟩ := hrec j hjr
                have hij : i ≠ j := fun hh => hir (hh ▸ hjr)
                rw [List.getElem?_set_ne hij] at hlj
                exact ⟨lj, hlj, hmj⟩

/-! ### Concrete documents used to exercise the theorems -/

/-- A line that matches the pattern: the pattern itself, newline-terminated. -/
def cLine : Line := targetPattern ++ [('\n' : Char)]

/-- A document of 21387 empty lines: every target index is in range and no
target matches. -/
def noMatchDoc : Document := List.replicate 21387 ([] : Line)

/-- noMatchDoc with the matching line placed at target index 14822. -/
def mDoc : Document := noMatchDoc.set 14822 cLine

/-- The expected result of the run on mDoc: the matching line replaced by
the block built at indentation 0. -/
def mOut : Document := noMatchDoc.set 14822 (newBlock 0)

theorem mem_fix_lines_lt : ∀ i ∈ fix_lines, i < 21387 := by decide

theorem noMatchDoc_getElem {i : Nat} (hi : i < 21387) : noMatchDoc[i]? = some [] := by
  rw [noMatchDoc, List.getElem?_replicate, if_pos hi]

theorem noMatch_all : ∀ i ∈ fix_lines,
    ∃ line, noMatchDoc[i]? = some line ∧ containsSub targetPattern line = false :=
  fun i hi => ⟨[], noMatchDoc_getElem (mem_fix_lines_lt i hi), by decide⟩

theorem run_noMatchDoc : runFix fix_lines noMatchDoc = some noMatchDoc :=
  runFix_of_no_match noMatch_all

theorem cLine_match : containsSub targetPattern cLine = true := by decide

theorem indentOf_cLine : indentOf cLine = 0 := by decide

theorem mDoc_getElem_self : mDoc[14822]? = some cLine := by
  rw [mDoc]
  exact List.getElem?_set_self (by rw [noMatchDoc, List.length_replicate]; omega)

theorem mOut_getElem_ne {i : Nat} (hne : i ≠ 14822) (hi : i < 21387) :
    mOut[i]? = some [] := by
  rw [mOut, List.getElem?_set_ne (fun hh => hne hh.symm)]
  exact noMatchDoc_getElem hi

theorem runFix_cons {doc d : Document} {i : Nat} (rest : List Nat)
    (h : applyTarget doc i = some d) : runFix (i :: rest) doc = runFix rest d := by
  conv_lhs => rw [runFix]
  rw [h]

theorem run_mDoc : runFix fix_lines mDoc = some mOut := by
  have h1 : applyTarget mDoc 14822 = some mOut := by
    rw [applyTarget_of_match mDoc_getElem_self cLine_match, indentOf_cLine, mDoc, mOut,
      List.set_set]
  have h2 : runFix [18483, 18536, 19103, 19255, 20593, 20639, 20816, 21334, 21386] mOut
      = some mOut := by
    apply runFix_of_no_match
    have hlt : ∀ i ∈ [18483, 18536, 19103, 19255, 20593, 20639, 20816, 21334, 21386],
        i ≠ 14822 ∧ i < 21387 := by decide
    intro i hi
    exact ⟨[], mOut_getElem_ne (hlt i hi).1 (hlt i hi).2, by decide⟩
  have hfl : fix_lines
      = 14822 :: [18483, 18536, 19103, 19255, 20593, 20639, 20816, 21334, 21386] := rfl
  rw [hfl, runFix_cons _ h1]
  exact h2

/-! ### The claims -/

/-- C1 (counterexample): the claim says the reported count equals the number
of targets actually applied. On a document of 21387 empty lines the run
completes with zero targets applied, yet the script reports 10. -/
theorem fix_count_counterexample :
    runFix fix_lines noMatchDoc = some noMatchDoc ∧
    appliedCount fix_lines noMatchDoc = 0 ∧
    reportedCount = 10 ∧
    reportedCount ≠ appliedCount fix_lines noMatchDoc := by
  have hz : appliedCount fix_lines noMatchDoc = 0 := appliedCount_of_no_match noMatch_all
  exact ⟨run_noMatchDoc, hz, rfl, by rw [hz]; decide⟩

/-- C1 (amended): on completion the script always reports the length of
fix_lines (10), regardless of how many targets were applied; the reported
count coincides with the applied count exactly when every target line
contains the pattern. -/
theorem fix_count_amended {doc d : Document} (h : runFix fix_lines doc = some d) :
    reportedCount = fix_lines.length ∧
    (appliedCount fix_lines doc = reportedCount ↔
      ∀ i ∈ fix_lines, ∃ line, doc[i]? = some line ∧ containsSub targetPattern line = true) := by
  refine ⟨rfl, ?_, ?_⟩
  · intro hc
    exact all_match_of_appliedCount_eq (by decide) hc
  · intro hall
    exact appliedCount_of_all_match (by decide) hall

/-- C1 (witness): the amended theorem applied to the all-empty document. -/
theorem fix_count_amended_witness :
    reportedCount = fix_lines.length ∧
    (appliedCount fix_lines noMatchDoc = reportedCount ↔
      ∀ i ∈ fix_lines,
        ∃ line, noMatchDoc[i]? = some line ∧ containsSub targetPattern line = true) :=
  fix_count_amended run_noMatchDoc

/-- C2: the patch application is idempotent: if a run completes with result d,
then running the same target list on d completes and returns d unchanged,
and the second pass applies zero targets. -/
theorem fix_idempotent {doc d : Document} (h : runFix fix_lines doc = some d) :
    runFix fix_lines d = some d ∧ appliedCount fix_lines d = 0 := by
  have hnd : fix_lines.Nodup := by decide
  have hpost : ∀ i ∈ fix_lines,
      ∃ line, d[i]? = some line ∧ containsSub targetPattern line = false := by
    intro i hi
    have hlt : i < doc.length := runFix_in_range h i hi
    have hl : doc[i]? = some doc[i] := List.getElem?_eq_getElem hlt
    have hchar := runFix_getElem hnd h i
    rw [if_pos hi, hl, Option.map_some'] at hchar
    cases hm : containsSub targetPattern doc[i] with
    | true =>
        refine ⟨newBlock (indentOf doc[i]), ?_, not_contains_newBlock _⟩
        rw [hchar, if_pos hm]
    | false =>
        refine ⟨doc[i], ?_, hm⟩
        rw [hchar, if_neg (by simp [hm])]
  exact ⟨runFix_of_no_match hpost, appliedCount_of_no_match hpost⟩

/-- C2 (witness): the theorem applied to the run on mDoc, whose line at
index 14822 matches and is rewritten. -/
theorem fix_idempotent_witness :
    runFix fix_lines mOut = some mOut ∧ appliedCount fix_lines mOut = 0 :=
  fix_idempotent run_mDoc

/-- C3 (counterexample): the claim says the replacement block ends with the
original matched line. At index 14822 of mDoc the matched line is cLine,
the run stores newBlock 0 there, and the last line of that block is not
cLine: the conversion check is rewritten, not re-emitted. -/
theorem fix_last_line_counterexample :
    containsSub targetPattern cLine = true ∧
    runFix fix_lines mDoc = some mOut ∧
    mOut[14822]? = some (newBlock (indentOf cLine)) ∧
    (newLines (indentOf cLine)).getLast? ≠ some cLine := by
  refine ⟨cLine_match, run_mDoc, ?_, ?_⟩
  · rw [indentOf_cLine, mOut]
    exact List.getElem?_set_self (by rw [noMatchDoc, List.length_replicate]; omega)
  · rw [indentOf_cLine]
    decide

/-- C3 (amended): for every matched target the replacement block ends not
with the original line but with the rewritten conversion check, indented
like the original line. -/
theorem fix_last_line_amended {doc : Document} {i : Nat} {line : Line}
    (h : doc[i]? = some line) (hm : containsSub targetPattern line = true) :
    applyTarget doc i = some (doc.set i (newBlock (indentOf line))) ∧
    (newLines (indentOf line)).getLast? = some (indentStr (indentOf line) ++
      "if basis = basisArg.ToNumber(); basis.Type != ArgNumber \x7b\n".toList) :=
  ⟨applyTarget_of_match h hm, rfl⟩

/-- C3 (witness): the amended theorem at index 14822 of mDoc. -/
theorem fix_last_line_amended_witness :
    applyTarget mDoc 14822 = some (mDoc.set 14822 (newBlock (indentOf cLine))) ∧
    (newLines (indentOf cLine)).getLast? = some (indentStr (indentOf cLine) ++
      "if basis = basisArg.ToNumber(); basis.Type != ArgNumber \x7b\n".toList) :=
  fix_last_line_amended mDoc_getElem_self cLine_match

/-- C4: a target whose pattern is not a substring of the line at its index
is silently skipped: the step succeeds (no error) and returns the document
completely unchanged. -/
theorem fix_skip_no_match {i : Nat} (hi : i ∈ fix_lines) {doc : Document} {line : Line}
    (h : doc[i]? = some line) (hm : containsSub targetPattern line = false) :
    applyTarget doc i = some doc :=
  applyTarget_of_no_match h hm

/-- C4 (witness): the target at index 14822 on the all-empty document. -/
theorem fix_skip_no_match_witness :
    applyTarget noMatchDoc 14822 = some noMatchDoc :=
  fix_skip_no_match (by decide) (noMatchDoc_getElem (by omega)) (by decide)

/-- C5: isolation: a completed run never changes an entry whose index is not
in fix_lines. -/
theorem fix_isolation {doc d : Document} (h : runFix fix_lines doc = some d)
    {j : Nat} (hj : j ∉ fix_lines) : d[j]? = doc[j]? :=
  runFix_getElem_not_mem h hj

/-- C5 (witness): the run on mDoc leaves index 0 unchanged. -/
theorem fix_isolation_witness : mOut[0]? = mDoc[0]? :=
  fix_isolation run_mDoc (by decide)

/-- C7: out-of-range target indices are fatal: on any document with at most
21386 lines the run aborts with the modelled IndexError instead of
completing. -/
theorem fix_out_of_range_fatal {doc : Document} (h : doc.length ≤ 21386) :
    runFix fix_lines doc = none := by
  cases hr : runFix fix_lines doc with
  | none => rfl
  | some d =>
      have := runFix_in_range hr 21386 (by decide)
      omega

/-- C7 (witness): the run on the empty document aborts. -/
theorem fix_out_of_range_fatal_witness : runFix fix_lines ([] : Document) = none :=
  fix_out_of_range_fatal (by simp)

/-- C8: a successful patch destroys its own precondition: after a matched
step the entry at the target index is the replacement block, which does not
contain the pattern as a substring. -/
theorem fix_destroys_precondition {doc : Document} {i : Nat} {line : Line}
    (h : doc[i]? = some line) (hm : containsSub targetPattern line = true) :
    ∃ d, applyTarget doc i = some d ∧ d[i]? = some (newBlock (indentOf line)) ∧
      containsSub targetPattern (newBlock (indentOf line)) = false := by
  refine ⟨doc.set i (newBlock (indentOf line)), applyTarget_of_match h hm, ?_,
    not_contains_newBlock _⟩
  have hi : i < doc.length := by
    by_contra hge
    rw [List.getElem?_eq_none (Nat.le_of_not_lt hge)] at h
    cases h
  exact List.getElem?_set_self hi

/-- C8 (witness): the matched target at index 14822 of mDoc. -/
theorem fix_destroys_precondition_witness :
    ∃ d, applyTarget mDoc 14822 = some d ∧ d[14822]? = some (newBlock (indentOf cLine)) ∧
      containsSub targetPattern (newBlock (indentOf cLine)) = false :=
  fix_destroys_precondition mDoc_getElem_self cLine_match

/-- C9: a completed run never changes the number of entries of the document,
and each targeted index ends up holding either its original line or the
single entry obtained by joining the five replacement lines built from that
original line, so the stored indices never drift within a run. -/
theorem fix_length_preserved {doc d : Document} (h : runFix fix_lines doc = some d) :
    d.length = doc.length ∧
    ∀ j ∈ fix_lines, d[j]? = (doc[j]?).map
      (fun l => if containsSub targetPattern l then (newLines (indentOf l)).flatten else l) := by
  refine ⟨runFix_length h, ?_⟩
  intro j hj
  have hc := runFix_getElem (by decide) h j
  rw [if_pos hj] at hc
  exact hc

/-- C9 (witness): the run on mDoc. -/
theorem fix_length_preserved_witness :
    mOut.length = mDoc.length ∧
    ∀ j ∈ fix_lines, mOut[j]? = (mDoc[j]?).map
      (fun l => if containsSub targetPattern l then (newLines (indentOf l)).flatten else l) :=
  fix_length_preserved run_mDoc

/-- C6: every line of the replacement block begins with the same indentation
prefix (the space character repeated indent times, indent being the length
of the leading whitespace of the matched line), and its own leading
whitespace has that same length, except the guard body at position 2 (the
return statement), which is one level deeper. -/
theorem fix_indentation {doc : Document} {i : Nat} {line : Line} {k : Nat} {lk : Line}
    (h : doc[i]? = some line) (hm : containsSub targetPattern line = true)
    (hk : (newLines (indentOf line))[k]? = some lk) :
    indentStr (indentOf line) <+: lk ∧
      indentOf lk = if k = 2 then indentOf line + 1 else indentOf line := by
  have hlen : (newLines (indentOf line)).length = 5 := by simp [newLines]
  have hk5 : k < 5 := by
    by_contra hge
    rw [List.getElem?_eq_none (by rw [hlen]; omega)] at hk
    cases hk
  interval_cases k <;>
    · simp only [newLines, List.getElem?_cons_zero, List.getElem?_cons_succ,
        Option.some.injEq] at hk
      subst hk
      exact ⟨List.prefix_append _ _,
        by rw [indentOf_indentStr_append]; simp; try decide⟩

/-- C6 (witness): the theorem at index 14822 of mDoc for the guard body
line (position 2), one level deeper than the matched line. -/
theorem fix_indentation_witness :
    indentStr (indentOf cLine) <+:
      "\treturn newErrorFormulaArg(formulaErrorNUM, formulaErrorNUM)\n".toList ∧
    indentOf ("\treturn newErrorFormulaArg(formulaErrorNUM, formulaErrorNUM)\n".toList) =
      if 2 = 2 then indentOf cLine + 1 else indentOf cLine :=
  fix_indentation mDoc_getElem_self cLine_match (by decide)

theorem count_newline_indentStr_append (n : Nat) (c : Line) :
    List.count ('\n' : Char) (indentStr n ++ c) = List.count ('\n' : Char) c := by
  rw [List.count_append, indentStr, List.count_replicate, if_neg (by decide), Nat.zero_add]

theorem getLast?_indentStr_append (n : Nat) {c : Line} (hc : c.getLast? = some ('\n' : Char)) :
    (indentStr n ++ c).getLast? = some ('\n' : Char) := by
  rw [List.getLast?_append, hc]
  rfl

/-- C10: a matched line is replaced by the single entry joining the five
replacement lines; there are exactly five of them, each terminated by
exactly one newline (its last character), and the whole block contains
exactly five newlines, so one matched line expands into five lines in the
written file. -/
theorem fix_five_line_block {doc : Document} {i : Nat} {line : Line}
    (h : doc[i]? = some line) (hm : containsSub targetPattern line = true) :
    applyTarget doc i = some (doc.set i ((newLines (indentOf line)).flatten)) ∧
    (newLines (indentOf line)).length = 5 ∧
    (∀ l ∈ newLines (indentOf line),
      List.count ('\n' : Char) l = 1 ∧ l.getLast? = some ('\n' : Char)) ∧
    List.count ('\n' : Char) (newBlock (indentOf line)) = 5 := by
  refine ⟨applyTarget_of_match h hm, by simp [newLines], ?_, ?_⟩
  · intro l hl
    fin_cases hl <;>
      exact ⟨by rw [count_newline_indentStr_append]; decide,
        getLast?_indentStr_append _ (by decide)⟩
  · have hI : List.count ('\n' : Char) (indentStr (indentOf line)) = 0 := by
      rw [indentStr, List.count_replicate, if_neg (by decide)]
    simp only [newBlock, newLines, List.flatten_cons, List.flatten_nil, List.append_nil,
      List.count_append, hI, Nat.zero_add]
    decide

/-- C10 (witness): the theorem at index 14822 of mDoc. -/
theorem fix_five_line_block_witness :
    applyTarget mDoc 14822 = some (mDoc.set 14822 ((newLines (indentOf cLine)).flatten)) ∧
    (newLines (indentOf cLine)).length = 5 ∧
    (∀ l ∈ newLines (indentOf cLine),
      List.count ('\n' : Char) l = 1 ∧ l.getLast? = some ('\n' : Char)) ∧
    List.count ('\n' : Char) (newBlock (indentOf cLine)) = 5 :=
  fix_five_line_block mDoc_getElem_self cLine_match
